import Mathlib

/-!
Verification of the qz archive engine (src/qz/src/lib.rs, src/qz/src/errors.rs).

Shallow embedding conventions:
* Byte sequences (file contents, buffers, archive files) are `List Nat`,
  each element a byte value; `u8` arithmetic uses explicit `% 256`.
* `u32` / `u64` fields are `Nat`; the crc32 computation keeps values below
  2 ^ 32 by construction, and buffer lengths are plain list lengths.
* Filesystem reads performed by the Rust code are modelled by passing the
  relevant data explicitly: an archive file is the byte list it contains,
  and the source directory scanned by `create_archive` is a `SrcEntry` tree.
* The external compression crates (zstd, lz4_compression) and serde_json are
  not part of this repository; they are modelled as parameters (`Codec`,
  `HeaderCodec`), exactly as the code uses them: encoding is total, decoding
  may fail.  The spec's round-trip law for codecs appears as a hypothesis
  where a theorem needs it.
* Fallible Rust code returning `Result` is modelled with `Except`;
  panics / `expect` in the packer are modelled with `Option`.
-/

--   -----------
--   | STRUCTS |
--   -----------

inductive CompressionAlgo where
  | ZSTD
  | LZ4
  | NONE
deriving DecidableEq, Repr

structure QZFile where
  name : String
  compression : CompressionAlgo
  checksum : Nat
  index_start : Nat
  index_size : Nat
deriving DecidableEq, Repr

/-- Embeds the mutually recursive Rust pair `QZEntry` / `QZDir`:
`QZDir { name, content: Vec<QZEntry> }` is flattened into the `Dir`
constructor carrying the same two fields. -/
inductive QZEntry where
  | Dir (name : String) (content : List QZEntry)
  | File (f : QZFile)
deriving Repr

structure QZArchiveHeader where
  name : String
  info : String
  version : String
  root : QZEntry
deriving Repr

/-- Errors of `_get_entry` (errors.rs, `EntryError`). -/
inductive EntryError where
  | NothingFound
  | PathError
  | Other (msg : String)
deriving DecidableEq, Repr

/-- Errors of file reading (`FileReadError` in the error module).  The
`Checksum (actual, expected)` variant is the one constructed by
`QZFile::read_file` in lib.rs and matched on by main.rs. -/
inductive FileReadError where
  | NotAFile
  | NotFound
  | CompressionError
  | Checksum (actual expected : Nat)
  | Other (msg : String)
deriving DecidableEq, Repr

/-- The external compression crates used by lib.rs: `zstd::stream` and
`lz4_compression`.  Encoding (`encode_all` / `compress`) is total (the code
unwraps it), decoding (`decode_all` / `decompress`) may fail. -/
structure Codec where
  zstdEncode : List Nat → List Nat
  zstdDecode : List Nat → Option (List Nat)
  lz4Encode : List Nat → List Nat
  lz4Decode : List Nat → Option (List Nat)

/-- Dispatch on `f.compression` as in the `// COMPRESSION` blocks of lib.rs. -/
def Codec.encode (c : Codec) : CompressionAlgo → List Nat → List Nat
  | .ZSTD, b => c.zstdEncode b
  | .LZ4, b => c.lz4Encode b
  | .NONE, b => b

def Codec.decode (c : Codec) : CompressionAlgo → List Nat → Option (List Nat)
  | .ZSTD, b => c.zstdDecode b
  | .LZ4, b => c.lz4Decode b
  | .NONE, b => some b

/-- The external serde_json serialization of the header
(`serde_json::to_vec` / `serde_json::from_slice`), modelled as a parameter. -/
structure HeaderCodec where
  toBytes : QZArchiveHeader → List Nat
  fromBytes : List Nat → Option QZArchiveHeader

--   ------------------------
--   | crc32fast::hash      |
--   ------------------------

/-- Reflected polynomial of CRC-32/ISO-HDLC, the algorithm of crc32fast. -/
def crc32Poly : Nat := 0xEDB88320

def crc32Shift (crc : Nat) : Nat :=
  if crc % 2 = 1 then crc / 2 ^^^ crc32Poly else crc / 2

def crc32Byte (crc b : Nat) : Nat :=
  crc32Shift (crc32Shift (crc32Shift (crc32Shift
    (crc32Shift (crc32Shift (crc32Shift (crc32Shift (crc ^^^ b % 256))))))))

/-- Model of `crc32fast::hash`: standard CRC-32 with init and final xor
0xFFFFFFFF, processing bytes least-significant-bit first. -/
def crc32 (bs : List Nat) : Nat :=
  0xFFFFFFFF ^^^ bs.foldl crc32Byte 0xFFFFFFFF

--   ------------------------
--   | byte level utilities |
--   ------------------------

/-- Model of `Read::read_exact` after seeking to `pos` in a file holding
`bytes`: fails unless `n` bytes are available (an empty read always
succeeds, as `read_exact` does on an empty buffer). -/
def readExactAt (bytes : List Nat) (pos n : Nat) : Option (List Nat) :=
  if n = 0 then some []
  else if pos + n ≤ bytes.length then some ((bytes.drop pos).take n)
  else none

def natToLeBytes : Nat → Nat → List Nat
  | 0, _ => []
  | k + 1, n => n % 256 :: natToLeBytes k (n / 256)

/-- Model of `usize::to_ne_bytes` / `u64::to_ne_bytes` on the reference
platform (x86-64, little endian): 8 bytes, least significant first. -/
def natToLe8 (n : Nat) : List Nat := natToLeBytes 8 n

/-- Model of `u64::from_ne_bytes` (little endian). -/
def leBytesToNat : List Nat → Nat
  | [] => 0
  | b :: bs => b % 256 + 256 * leBytesToNat bs

/-- Stands for the `Debug` rendering of the `UnexpectedEof` I/O error that
`read_exact` produces on a short read; lib.rs wraps it via
`format!("{:?}", err)`.  Only its presence (a non-empty message) matters. -/
def readExactFailMsg : String := "failed to fill whole buffer"

--   -------------------------
--   | QZFile reading (lib)  |
--   -------------------------

/-- The `// COMPRESSION` block of `QZFile::read_file` (lib.rs lines 54-72). -/
def QZFile.decodeStage (c : Codec) (f : QZFile) (read_buf : List Nat) :
    Except FileReadError (List Nat) :=
  match f.compression with
  | .ZSTD =>
      match c.zstdDecode read_buf with
      | some b => .ok b
      | none => .error .CompressionError
  | .LZ4 =>
      match c.lz4Decode read_buf with
      | some b => .ok b
      | none => .error .CompressionError
  | .NONE => .ok read_buf

/-- The `// CHECKSUM` stage followed by the decompression stage of
`QZFile::read_file` (lib.rs lines 47-74). -/
def QZFile.afterRead (c : Codec) (f : QZFile) (read_buf : List Nat) :
    Except FileReadError (List Nat) :=
  if crc32 read_buf ≠ f.checksum then
    .error (.Checksum (crc32 read_buf) f.checksum)
  else f.decodeStage c read_buf

/-- `QZFile::read_file` (lib.rs lines 32-75): seek to `offset + index_start`,
read exactly `index_size` bytes, then checksum and decompress. -/
def QZFile.read_file (c : Codec) (f : QZFile) (archive : List Nat) (offset : Nat) :
    Except FileReadError (List Nat) :=
  match readExactAt archive (offset + f.index_start) f.index_size with
  | none => .error (.Other readExactFailMsg)
  | some read_buf => f.afterRead c read_buf

/-- `QZFile::is_valid` (lib.rs lines 77-86). -/
def QZFile.is_valid (c : Codec) (f : QZFile) (archive : List Nat) (offset : Nat) :
    Except FileReadError Unit :=
  match f.read_file c archive offset with
  | .ok _ => .ok ()
  | .error (.Checksum real exp) => .error (.Checksum real exp)
  | .error _ => .error (.Other "")

--   ------------------------------
--   | std::path components model |
--   ------------------------------

/-- The variants of `std::path::Component` that can occur on Unix without a
prefix. -/
inductive PathComponent where
  | rootDir
  | curDir
  | parentDir
  | normal (s : String)
deriving DecidableEq, Repr

/-- Splits a character list at every slash (keeping empty pieces). -/
def splitSlash : List Char → List (List Char)
  | [] => [[]]
  | ch :: cs =>
      if ch = '/' then [] :: splitSlash cs
      else
        match splitSlash cs with
        | p :: ps => (ch :: p) :: ps
        | [] => [[ch]]

def toComp (p : List Char) : PathComponent :=
  if p = ['.', '.'] then .parentDir else .normal (String.mk p)

/-- Model of `std::path::Path::components()` on Unix: a leading slash is the
root component, empty components (doubled or trailing separators) are
dropped, `.` components are normalized away except as the first component of
a relative path, and `..` is `ParentDir`. -/
def pathComponents (s : String) : List PathComponent :=
  match s.data with
  | [] => []
  | ch :: cs =>
      if ch = '/' then
        .rootDir ::
          ((splitSlash cs).filter (fun p => !p.isEmpty && p ≠ ['.'])).map toComp
      else
        match (splitSlash (ch :: cs)).filter (fun p => !p.isEmpty) with
        | [] => []
        | p :: ps =>
            (if p = ['.'] then .curDir else toComp p) ::
              (ps.filter (fun q => q ≠ ['.'])).map toComp

--   -----------------
--   | archive reads |
--   -----------------

/-- Reader-side handle (lib.rs `QZArchive`); `archive_file` holds the bytes
of the file that the stored path points to (each retrieval reopens it). -/
structure QZArchive where
  archive_file : List Nat
  header_size : Nat
  header : QZArchiveHeader

def entryName : QZEntry → String
  | .Dir n _ => n
  | .File f => f.name

/-- The `Debug` rendering (`format!("{:?}", err)`) of an `EntryError`, as
produced by the derived `Debug` instance. -/
def entryErrDebug : EntryError → String
  | .NothingFound => "NothingFound"
  | .PathError => "PathError"
  | .Other s => "Other(\"" ++ s ++ "\")"

/-- `QZArchive::get_path` (lib.rs lines 309-311): `format!("/{path}")`. -/
def QZArchive.get_path (path : String) : String := "/" ++ path

/-- `QZArchive::_get_entry` (lib.rs lines 325-358).  The Rust `for` loop
returns at the first child whose name equals the component (recursing for a
directory, returning immediately for a file), which is `List.find?` on the
name.  A `File` current entry falls through to `Other("")`. -/
def QZArchive._get_entry (comps : List PathComponent) (current_entry : QZEntry) :
    Except EntryError QZEntry :=
  match current_entry with
  | .Dir n content =>
      match comps with
      | .normal w :: rest =>
          match content.find? (fun e => entryName e == w) with
          | some (.Dir n2 cs) => QZArchive._get_entry rest (.Dir n2 cs)
          | some (.File f) => .ok (.File f)
          | none => .error .NothingFound
      | [] => .ok (.Dir n content)
      | _ => .error .PathError
  | .File _ => .error (.Other "")

/-- `QZArchive::read_file` (lib.rs lines 255-280).  Resolution errors are
wrapped as `Other(format!("{:?}", err))`; the final `NotFound` is reached
only when the first component is not the root. -/
def QZArchive.read_file (c : Codec) (a : QZArchive) (path : String) :
    Except FileReadError (List Nat) :=
  match pathComponents (QZArchive.get_path path) with
  | .rootDir :: comps =>
      match QZArchive._get_entry comps a.header.root with
      | .error e => .error (.Other (entryErrDebug e))
      | .ok (.Dir _ _) => .error .NotAFile
      | .ok (.File f) => f.read_file c a.archive_file (a.header_size + 8)
  | _ => .error .NotFound

/-- `QZArchive::check_file` (lib.rs lines 282-307). -/
def QZArchive.check_file (c : Codec) (a : QZArchive) (path : String) :
    Except FileReadError Unit :=
  match pathComponents (QZArchive.get_path path) with
  | .rootDir :: comps =>
      match QZArchive._get_entry comps a.header.root with
      | .error e => .error (.Other (entryErrDebug e))
      | .ok (.Dir _ _) => .error .NotAFile
      | .ok (.File f) =>
          match f.is_valid c a.archive_file (a.header_size + 8) with
          | .ok _ => .ok ()
          | .error e => .error e
  | _ => .error .NotFound

/-- `QZArchive::get_entry` (lib.rs lines 314-323). -/
def QZArchive.get_entry (a : QZArchive) (path : String) :
    Except EntryError QZEntry :=
  match pathComponents (QZArchive.get_path path) with
  | .rootDir :: comps => QZArchive._get_entry comps a.header.root
  | _ => .error (.Other "")

--   -------------------
--   | packing (write) |
--   -------------------

/-- A source directory tree as scanned by `pack_dir` / read by
`write_files_dir`: files with their byte contents, subdirectories with
children in directory-scan order. -/
inductive SrcEntry where
  | file (name : String) (data : List Nat)
  | dir (name : String) (content : List SrcEntry)
deriving Repr

def srcName : SrcEntry → String
  | .file n _ => n
  | .dir n _ => n

/-- The filesystem as seen by `write_files_dir`: a map from paths (component
lists) to file contents. -/
abbrev FileSystem := List (List String × List Nat)

/-- Model of opening and fully reading the file at path `p`. -/
def fsRead (fs : FileSystem) (p : List String) : Option (List Nat) :=
  (fs.find? (fun kv => kv.1 == p)).map (fun kv => kv.2)

/-- The filesystem induced by a source tree rooted at path `base`. -/
def srcFS : List String → List SrcEntry → FileSystem
  | _, [] => []
  | base, .file n d :: es => (base ++ [n], d) :: srcFS base es
  | base, .dir n cs :: es => srcFS (base ++ [n]) cs ++ srcFS base es

/-- The placeholder `QZFile` built by `pack_dir` (lib.rs lines 120-126):
caller-chosen compression, all storage fields zero. -/
def pack_file (compression : CompressionAlgo) (n : String) : QZFile :=
  { name := n, compression := compression, checksum := 0,
    index_start := 0, index_size := 0 }

/-- The scan loop of `pack_dir` (lib.rs lines 111-143) over one directory's
entries, in scan order. -/
def pack_dir_list (compression : CompressionAlgo) : List SrcEntry → List QZEntry
  | [] => []
  | .file n _ :: es => .File (pack_file compression n) :: pack_dir_list compression es
  | .dir n cs :: es => .Dir n (pack_dir_list compression cs) :: pack_dir_list compression es

/-- `pack_dir` itself: wraps the scanned children in a `Dir` named after the
scanned directory. -/
def pack_dir (compression : CompressionAlgo) (name : String)
    (content : List SrcEntry) : QZEntry :=
  .Dir name (pack_dir_list compression content)

/-- `write_files_dir` (lib.rs lines 164-208), acting on one directory's
`content` list: directories recurse with the joined path, files read their
source bytes, encode them, set `index_start` to the buffer length before
appending, checksum and size over the encoded bytes, then append.  `none`
models the `expect("no file found")` panic. -/
def write_files_dir (c : Codec) (fs : FileSystem) :
    List String → List QZEntry → List Nat → Option (List QZEntry × List Nat)
  | _, [], f_content => some ([], f_content)
  | path, .Dir n cs :: es, f_content =>
      match write_files_dir c fs (path ++ [n]) cs f_content with
      | none => none
      | some (cs2, b1) =>
          match write_files_dir c fs path es b1 with
          | none => none
          | some (es2, b2) => some (.Dir n cs2 :: es2, b2)
  | path, .File f :: es, f_content =>
      match fsRead fs (path ++ [f.name]) with
      | none => none
      | some data =>
          let buffer := c.encode f.compression data
          let f2 : QZFile :=
            { f with index_start := f_content.length,
                     checksum := crc32 buffer,
                     index_size := buffer.length }
          match write_files_dir c fs path es (f_content ++ buffer) with
          | none => none
          | some (es2, b2) => some (.File f2 :: es2, b2)

/-- Models `env!("CARGO_PKG_VERSION")`. -/
def cargoPkgVersion : String := "0.1.0"

/-- `create_archive` (lib.rs lines 150-240).  The source directory is given
as its name plus scanned children; the returned bytes are the archive file:
8-byte little-endian compressed-header length, compressed header, content
region.  The `if let QZEntry::Dir` in the Rust code always matches because
`pack_dir` returns a `Dir`. -/
def create_archive (c : Codec) (hc : HeaderCodec) (src_root_name : String)
    (src : List SrcEntry) (name description : String)
    (compression : CompressionAlgo) : Option (List Nat) :=
  match write_files_dir c (srcFS [] src) [] (pack_dir_list compression src) [] with
  | none => none
  | some (content2, files_content) =>
      let archive : QZArchiveHeader :=
        { name := name, info := description, version := cargoPkgVersion,
          root := .Dir src_root_name content2 }
      let header := c.zstdEncode (hc.toBytes archive)
      some (natToLe8 header.length ++ header ++ files_content)

/-- `read_archive` (lib.rs lines 401-445), with the `ReadError` messages of
the source. -/
def read_archive (c : Codec) (hc : HeaderCodec) (bytes : List Nat) :
    Except String QZArchive :=
  match readExactAt bytes 0 8 with
  | none => .error "failed to read header size"
  | some size_buf =>
      let size := leBytesToNat size_buf
      match readExactAt bytes 8 size with
      | none => .error "failed to read header"
      | some header_buf =>
          match c.zstdDecode header_buf with
          | none => .error "failed to decompress header"
          | some decompressed =>
              match hc.fromBytes decompressed with
              | none => .error "failed to decode header"
              | some header =>
                  .ok { archive_file := bytes, header_size := size, header := header }

--   -----------------------------------
--   | specification-side definitions  |
--   -----------------------------------

/-- Skeleton of an entry tree: everything except the storage fields written
by `write_files_dir` (checksum, index_start, index_size). -/
inductive Skel where
  | SDir (name : String) (content : List Skel)
  | SFile (name : String) (compression : CompressionAlgo)
deriving Repr

def skelList : List QZEntry → List Skel
  | [] => []
  | .Dir n cs :: es => .SDir n (skelList cs) :: skelList es
  | .File f :: es => .SFile f.name f.compression :: skelList es

def skelName : Skel → String
  | .SDir n _ => n
  | .SFile n _ => n

/-- The file entry reached by following the component list `q` through an
entry list (first matching the head of `q` against a child, then walking
deeper). -/
inductive FileAt : List QZEntry → List String → QZFile → Prop where
  | hereFile (f : QZFile) (es : List QZEntry) : FileAt (.File f :: es) [f.name] f
  | hereDir (n : String) (cs es : List QZEntry) (q : List String) (f : QZFile) :
      FileAt cs q f → FileAt (.Dir n cs :: es) (n :: q) f
  | there (e : QZEntry) (es : List QZEntry) (q : List String) (f : QZFile) :
      FileAt es q f → FileAt (e :: es) q f

/-- The source file reached by following `q` through a source tree. -/
inductive SrcPath : List SrcEntry → List String → List Nat → Prop where
  | hereFile (n : String) (d : List Nat) (es : List SrcEntry) :
      SrcPath (.file n d :: es) [n] d
  | hereDir (n : String) (cs es : List SrcEntry) (q : List String) (d : List Nat) :
      SrcPath cs q d → SrcPath (.dir n cs :: es) (n :: q) d
  | there (e : SrcEntry) (es : List SrcEntry) (q : List String) (d : List Nat) :
      SrcPath es q d → SrcPath (e :: es) q d

/-- Filenames a real filesystem can produce: non-empty, not a dot entry, no
separator inside. -/
def validName (n : String) : Bool :=
  n ≠ "" && n ≠ "." && n ≠ ".." && n.data.all (fun ch => ch ≠ '/')

/-- Well-formedness of a scanned source tree: sibling names are unique (a
filesystem directory cannot hold two entries of the same name) and every
name is a valid filename. -/
inductive SrcWF : List SrcEntry → Prop where
  | mk (ss : List SrcEntry) :
      (ss.map srcName).Nodup →
      (∀ e ∈ ss, validName (srcName e) = true) →
      (∀ n cs, SrcEntry.dir n cs ∈ ss → SrcWF cs) →
      SrcWF ss

/-- Unique sibling names, stated on skeletons. -/
inductive UniqSkel : List Skel → Prop where
  | mk (ks : List Skel) :
      (ks.map skelName).Nodup →
      (∀ n cs, Skel.SDir n cs ∈ ks → UniqSkel cs) →
      UniqSkel ks

/-- Sequential layout of encoded payloads from a given offset: each file
entry records the running offset, the encoded length and the crc32 of its
encoded bytes. -/
def layout : Nat → List (QZFile × List Nat) → Prop
  | _, [] => True
  | off, (f, enc) :: rest =>
      f.index_start = off ∧ f.index_size = enc.length ∧
      f.checksum = crc32 enc ∧ layout (off + enc.length) rest

/-- Depth-first list of the file entries of a tree, each paired with the
encoding of its source bytes under its own compression tag. -/
def dfsEnc (c : Codec) (fs : FileSystem) :
    List String → List QZEntry → Option (List (QZFile × List Nat))
  | _, [] => some []
  | path, .Dir n cs :: es =>
      match dfsEnc c fs (path ++ [n]) cs with
      | none => none
      | some l1 =>
          match dfsEnc c fs path es with
          | none => none
          | some l2 => some (l1 ++ l2)
  | path, .File f :: es =>
      match fsRead fs (path ++ [f.name]) with
      | none => none
      | some data =>
          match dfsEnc c fs path es with
          | none => none
          | some l => some ((f, c.encode f.compression data) :: l)

/-- Slash-joined relative path, as a caller would write it. -/
def joinPath : List String → String
  | [] => ""
  | [n] => n
  | n :: q => n ++ "/" ++ joinPath q

--   --------------------------------------
--   | concrete instances for evaluation  |
--   --------------------------------------

/-- A codec instance whose encode/decode pairs are identities; it satisfies
the spec's round-trip law. -/
def idCodec : Codec :=
  { zstdEncode := fun b => b, zstdDecode := fun b => some b,
    lz4Encode := fun b => b, lz4Decode := fun b => some b }

--   ------------------
--   | helper lemmas  |
--   ------------------

theorem natToLeBytes_length (k : Nat) : ∀ n, (natToLeBytes k n).length = k := by
  induction k with
  | zero => intro n; rfl
  | succ k ih => intro n; simp [natToLeBytes, ih]

theorem natToLe8_length (n : Nat) : (natToLe8 n).length = 8 :=
  natToLeBytes_length 8 n

theorem leBytesToNat_natToLeBytes (k : Nat) :
    ∀ n, n < 256 ^ k → leBytesToNat (natToLeBytes k n) = n := by
  induction k with
  | zero => intro n h; simp at h; simp [h, natToLeBytes, leBytesToNat]
  | succ k ih =>
      intro n h
      have hdiv : n / 256 < 256 ^ k := by
        rw [Nat.div_lt_iff_lt_mul (by norm_num : 0 < 256)]
        calc n < 256 ^ (k + 1) := h
        _ = 256 ^ k * 256 := by ring
      simp [natToLeBytes, leBytesToNat, ih (n / 256) hdiv]
      omega

theorem leBytesToNat_natToLe8 (n : Nat) (h : n < 256 ^ 8) :
    leBytesToNat (natToLe8 n) = n :=
  leBytesToNat_natToLeBytes 8 n h

theorem readExactAt_of_le (bytes : List Nat) (pos n : Nat)
    (h : pos + n ≤ bytes.length) :
    readExactAt bytes pos n = some ((bytes.drop pos).take n) := by
  by_cases hn : n = 0
  · subst hn; simp [readExactAt]
  · simp [readExactAt, hn, h]

theorem readExactAt_length (bytes : List Nat) (pos n : Nat) (l : List Nat)
    (h : readExactAt bytes pos n = some l) : l.length = n := by
  unfold readExactAt at h
  by_cases hn : n = 0
  · simp [hn] at h; simp [← h, hn]
  · simp [hn] at h
    obtain ⟨hle, hl⟩ := h
    rw [← hl]
    simp
    omega

/-- Reading a prefix-sized block at position 0 of an appended list. -/
theorem readExactAt_prefix (l1 l2 : List Nat) :
    readExactAt (l1 ++ l2) 0 l1.length = some l1 := by
  rw [readExactAt_of_le]
  · simp
  · simp

/-- Reading past a known prefix reads in the suffix. -/
theorem readExactAt_suffix (pre l : List Nat) (pos n : Nat) :
    readExactAt (pre ++ l) (pre.length + pos) n = readExactAt l pos n := by
  unfold readExactAt
  by_cases hn : n = 0
  · simp [hn]
  · simp only [hn, if_false]
    by_cases h : pos + n ≤ l.length
    · have h2 : pre.length + pos + n ≤ (pre ++ l).length := by simp; omega
      simp only [h2, if_true, h, if_true]
      rw [List.drop_append_eq_append_drop]
      rw [List.drop_eq_nil_of_le (by omega : pre.length ≤ pre.length + pos)]
      simp [Nat.add_sub_cancel_left]
    · have h2 : ¬ (pre.length + pos + n ≤ (pre ++ l).length) := by simp; omega
      simp only [h2, if_false, h]

/-- A slice that lies inside the left part of an append. -/
theorem slice_append_left (l1 l2 : List Nat) (st sz : Nat)
    (h : st + sz ≤ l1.length) :
    (((l1 ++ l2).drop st).take sz) = ((l1.drop st).take sz) := by
  rw [List.drop_append_eq_append_drop]
  have h1 : st ≤ l1.length := by omega
  rw [List.take_append_eq_append_take]
  have h2 : sz ≤ (l1.drop st).length := by simp; omega
  simp only [List.length_drop]
  have h3 : sz - (l1.length - st) = 0 := by omega
  simp [h3]

theorem layout_append (l1 : List (QZFile × List Nat)) :
    ∀ off l2, layout off l1 →
      layout (off + ((l1.map Prod.snd).flatten).length) l2 →
      layout off (l1 ++ l2) := by
  induction l1 with
  | nil => intro off l2 _ h2; simpa using h2
  | cons fe rest ih =>
      intro off l2 h1 h2
      obtain ⟨f, enc⟩ := fe
      obtain ⟨hs, hz, hc, hrest⟩ := h1
      refine ⟨hs, hz, hc, ?_⟩
      apply ih
      · exact hrest
      · have harith : off + enc.length + ((rest.map Prod.snd).flatten).length =
            off + ((((f, enc) :: rest).map Prod.snd).flatten).length := by
          simp
          omega
        rw [harith]
        exact h2

/-- The conclusions of the master lemma about `write_files_dir`:
shape preservation, sequential layout of the encoded payloads, and the
per-file storage facts. -/
def WriteSpec (c : Codec) (fs : FileSystem) (path : List String)
    (es : List QZEntry) (buf : List Nat)
    (es2 : List QZEntry) (buf2 : List Nat) : Prop :=
  skelList es2 = skelList es ∧
  (∃ ps, dfsEnc c fs path es2 = some ps ∧
      buf2 = buf ++ (ps.map Prod.snd).flatten ∧
      layout buf.length ps) ∧
  (∀ q f, FileAt es q f →
      ∃ f2, FileAt es2 q f2 ∧ f2.name = f.name ∧
        f2.compression = f.compression) ∧
  (∀ q f2, FileAt es2 q f2 → ∃ data,
      fsRead fs (path ++ q) = some data ∧
      f2.index_size = (c.encode f2.compression data).length ∧
      f2.checksum = crc32 (c.encode f2.compression data) ∧
      buf.length ≤ f2.index_start ∧
      f2.index_start + f2.index_size ≤ buf2.length ∧
      ((buf2.drop f2.index_start).take f2.index_size) =
        c.encode f2.compression data)

theorem write_spec_aux (c : Codec) (fs : FileSystem) :
    ∀ N es, sizeOf es < N → ∀ path buf es2 buf2,
      write_files_dir c fs path es buf = some (es2, buf2) →
      WriteSpec c fs path es buf es2 buf2 := by
  intro N
  induction N with
  | zero => intro es h; exact absurd h (Nat.not_lt_zero _)
  | succ N ih =>
      intro es h path buf es2 buf2 hw
      match es with
      | [] =>
          simp only [write_files_dir, Option.some.injEq, Prod.mk.injEq] at hw
          obtain ⟨h1, h2⟩ := hw
          subst h1; subst h2
          refine ⟨rfl, ⟨[], by simp [dfsEnc], by simp, trivial⟩, ?_, ?_⟩
          · intro q f hfa; cases hfa
          · intro q f hfa; cases hfa
      | .Dir n cs :: rest =>
          have hszcs : sizeOf cs < N := by
            simp only [List.cons.sizeOf_spec, QZEntry.Dir.sizeOf_spec] at h
            omega
          have hszrest : sizeOf rest < N := by
            simp only [List.cons.sizeOf_spec] at h
            omega
          rcases h1 : write_files_dir c fs (path ++ [n]) cs buf with _ | ⟨cs2, b1⟩
          · simp [write_files_dir, h1] at hw
          rcases h2 : write_files_dir c fs path rest b1 with _ | ⟨rest2, b2⟩
          · simp [write_files_dir, h1, h2] at hw
          simp only [write_files_dir, h1, h2, Option.some.injEq, Prod.mk.injEq] at hw
          obtain ⟨hes2, hbuf2⟩ := hw
          subst hes2; subst hbuf2
          obtain ⟨sk1, ⟨ps1, hps1, hb1, hl1⟩, fw1, bk1⟩ :=
            ih cs hszcs (path ++ [n]) buf cs2 b1 h1
          obtain ⟨sk2, ⟨ps2, hps2, hb2, hl2⟩, fw2, bk2⟩ :=
            ih rest hszrest path b1 rest2 b2 h2
          have hb1len : b1.length = buf.length + ((ps1.map Prod.snd).flatten).length := by
            rw [hb1]; simp
          refine ⟨?_, ⟨ps1 ++ ps2, ?_, ?_, ?_⟩, ?_, ?_⟩
          · simp [skelList, sk1, sk2]
          · simp [dfsEnc, hps1, hps2]
          · rw [hb2, hb1]
            simp [List.append_assoc]
          · apply layout_append _ _ _ hl1
            rw [← hb1len]
            exact hl2
          · intro q f hfa
            cases hfa with
            | hereDir _ _ _ q2 f hf =>
                obtain ⟨f2, hfa2, hn, hc2⟩ := fw1 q2 f hf
                exact ⟨f2, .hereDir n cs2 rest2 q2 f2 hfa2, hn, hc2⟩
            | there _ _ _ f hf =>
                obtain ⟨f2, hfa2, hn, hc2⟩ := fw2 q f hf
                exact ⟨f2, .there _ rest2 q f2 hfa2, hn, hc2⟩
          · intro q f2 hfa
            have hb2len : b1.length ≤ b2.length := by
              rw [hb2]; simp
            cases hfa with
            | hereDir _ _ _ q2 f2 hf =>
                obtain ⟨data, hdata, hsz, hck, hlo, hhi, hslice⟩ := bk1 q2 f2 hf
                refine ⟨data, ?_, hsz, hck, hlo, by omega, ?_⟩
                · rw [← hdata]; simp
                · rw [hb2, slice_append_left _ _ _ _ (by omega)]
                  exact hslice
            | there _ _ _ f2 hf =>
                obtain ⟨data, hdata, hsz, hck, hlo, hhi, hslice⟩ := bk2 q f2 hf
                have hble : buf.length ≤ b1.length := by rw [hb1]; simp
                exact ⟨data, hdata, hsz, hck, by omega, hhi, hslice⟩
      | .File f :: rest =>
          have hszrest : sizeOf rest < N := by
            simp only [List.cons.sizeOf_spec] at h
            omega
          rcases hd : fsRead fs (path ++ [f.name]) with _ | data
          · simp [write_files_dir, hd] at hw
          rcases h2 : write_files_dir c fs path rest
              (buf ++ c.encode f.compression data) with _ | ⟨rest2, b2⟩
          · simp [write_files_dir, hd, h2] at hw
          simp only [write_files_dir, hd, h2, Option.some.injEq, Prod.mk.injEq] at hw
          obtain ⟨hes2, hbuf2⟩ := hw
          subst hes2; subst hbuf2
          obtain ⟨sk2, ⟨ps2, hps2, hb2, hl2⟩, fw2, bk2⟩ :=
            ih rest hszrest path (buf ++ c.encode f.compression data) rest2 b2 h2
          refine ⟨?_, ⟨({ f with
                index_start := buf.length,
                checksum := crc32 (c.encode f.compression data),
                index_size := (c.encode f.compression data).length },
              c.encode f.compression data) :: ps2, ?_, ?_, ?_⟩, ?_, ?_⟩
          · simp [skelList, sk2]
          · simp [dfsEnc, hd, hps2]
          · rw [hb2]
            simp [List.append_assoc]
          · refine ⟨rfl, rfl, rfl, ?_⟩
            have hl3 : (buf ++ c.encode f.compression data).length =
                buf.length + (c.encode f.compression data).length := by simp
            rw [← hl3]
            exact hl2
          · intro q g hfa
            cases hfa with
            | hereFile _ _ =>
                refine ⟨_, .hereFile { f with
                  index_start := buf.length,
                  checksum := crc32 (c.encode f.compression data),
                  index_size := (c.encode f.compression data).length } rest2, rfl, rfl⟩
            | there _ _ _ g hf =>
                obtain ⟨g2, hfa2, hn, hc2⟩ := fw2 q g hf
                exact ⟨g2, .there _ rest2 q g2 hfa2, hn, hc2⟩
          · intro q g2 hfa
            cases hfa with
            | hereFile _ _ =>
                refine ⟨data, hd, rfl, rfl, le_refl _, ?_, ?_⟩
                · rw [hb2]
                  simp
                · rw [hb2]
                  have h3 : buf ++ c.encode f.compression data ++
                      (ps2.map Prod.snd).flatten =
                      buf ++ (c.encode f.compression data ++
                        (ps2.map Prod.snd).flatten) := by
                    simp [List.append_assoc]
                  rw [h3]
                  show ((buf ++ (c.encode f.compression data ++
                      (ps2.map Prod.snd).flatten)).drop buf.length).take
                      (c.encode f.compression data).length =
                    c.encode f.compression data
                  rw [List.drop_left, List.take_left]
            | there _ _ _ g2 hf =>
                obtain ⟨d2, hdata, hsz, hck, hlo, hhi, hslice⟩ := bk2 q g2 hf
                refine ⟨d2, hdata, hsz, hck, ?_, hhi, hslice⟩
                have hble : buf.length ≤ (buf ++ c.encode f.compression data).length := by
                  simp
                omega

/-- Master lemma for `write_files_dir`. -/
theorem write_spec (c : Codec) (fs : FileSystem) (path : List String)
    (es : List QZEntry) (buf : List Nat) (es2 : List QZEntry) (buf2 : List Nat)
    (hw : write_files_dir c fs path es buf = some (es2, buf2)) :
    WriteSpec c fs path es buf es2 buf2 :=
  write_spec_aux c fs (sizeOf es + 1) es (Nat.lt_succ_self _) path buf es2 buf2 hw

--   -----------------------------
--   | source tree lemmas        |
--   -----------------------------

theorem srcWF_tail {e : SrcEntry} {es : List SrcEntry} (h : SrcWF (e :: es)) :
    SrcWF es := by
  cases h with
  | mk _ nd vn sub =>
      exact SrcWF.mk _ (List.nodup_cons.mp nd).2
        (fun x hx => vn x (List.mem_cons_of_mem _ hx))
        (fun n cs hm => sub n cs (List.mem_cons_of_mem _ hm))

theorem srcWF_head_dir {n : String} {cs es : List SrcEntry}
    (h : SrcWF (.dir n cs :: es)) : SrcWF cs := by
  cases h with
  | mk _ nd vn sub => exact sub n cs (List.mem_cons_self _ _)

theorem srcWF_head_not_in {e : SrcEntry} {es : List SrcEntry}
    (h : SrcWF (e :: es)) : srcName e ∉ es.map srcName := by
  cases h with
  | mk _ nd vn sub => exact (List.nodup_cons.mp nd).1

theorem srcPath_head {ss : List SrcEntry} {q : List String} {d : List Nat}
    (h : SrcPath ss q d) : ∃ m q2, q = m :: q2 ∧ m ∈ ss.map srcName := by
  induction h with
  | hereFile n d es => exact ⟨n, [], rfl, by simp [srcName]⟩
  | hereDir n cs es q d _ _ => exact ⟨n, q, rfl, by simp [srcName]⟩
  | there e es q d _ ih =>
      obtain ⟨m, q2, hq, hm⟩ := ih
      exact ⟨m, q2, hq, by simp [hm]⟩

theorem srcFS_key_aux : ∀ N ss, sizeOf ss < N → ∀ (b : List String) p d,
    (p, d) ∈ srcFS b ss → ∃ m r, m ∈ ss.map srcName ∧ p = b ++ m :: r := by
  intro N
  induction N with
  | zero => intro ss h; exact absurd h (Nat.not_lt_zero _)
  | succ N ih =>
      intro ss h b p d hm
      match ss with
      | [] => simp [srcFS] at hm
      | .file n dd :: es =>
          have hsz : sizeOf es < N := by
            simp only [List.cons.sizeOf_spec] at h; omega
          simp only [srcFS, List.mem_cons] at hm
          rcases hm with h1 | h1
          · have hp : p = b ++ [n] := by
              have h2 := congrArg Prod.fst h1
              simpa using h2
            exact ⟨n, [], by simp [srcName], by rw [hp]⟩
          · obtain ⟨m, r, hm2, hp⟩ := ih es hsz b p d h1
            exact ⟨m, r, by simp [hm2], hp⟩
      | .dir n cs :: es =>
          have hszcs : sizeOf cs < N := by
            simp only [List.cons.sizeOf_spec, SrcEntry.dir.sizeOf_spec] at h; omega
          have hszes : sizeOf es < N := by
            simp only [List.cons.sizeOf_spec] at h; omega
          simp only [srcFS, List.mem_append] at hm
          rcases hm with h1 | h1
          · obtain ⟨m, r, _, hp⟩ := ih cs hszcs (b ++ [n]) p d h1
            refine ⟨n, m :: r, by simp [srcName], ?_⟩
            rw [hp]; simp
          · obtain ⟨m, r, hm2, hp⟩ := ih es hszes b p d h1
            exact ⟨m, r, by simp [hm2], hp⟩

theorem srcFS_key {ss : List SrcEntry} {b : List String} {p : List String}
    {d : List Nat} (hm : (p, d) ∈ srcFS b ss) :
    ∃ m r, m ∈ ss.map srcName ∧ p = b ++ m :: r :=
  srcFS_key_aux (sizeOf ss + 1) ss (Nat.lt_succ_self _) b p d hm

theorem fsRead_srcPath {ss : List SrcEntry} {q : List String} {d : List Nat}
    (hp : SrcPath ss q d) : SrcWF ss →
    ∀ b, fsRead (srcFS b ss) (b ++ q) = some d := by
  induction hp with
  | hereFile n d es =>
      intro hwf b
      simp only [srcFS, fsRead]
      rw [List.find?_cons_of_pos _ (by simp)]
      rfl
  | hereDir n cs es q d hsub ih =>
      intro hwf b
      simp only [srcFS, fsRead]
      have hIH := ih (srcWF_head_dir hwf) (b ++ [n])
      simp only [fsRead] at hIH
      obtain ⟨kv, hkv, hkv2⟩ := Option.map_eq_some'.mp hIH
      rw [List.find?_append, show b ++ n :: q = (b ++ [n]) ++ q by simp, hkv]
      simp [hkv2]
  | there e es q d hsub ih =>
      intro hwf b
      obtain ⟨m, q2, hq, hmem⟩ := srcPath_head hsub
      subst hq
      have hne : srcName e ≠ m := by
        intro hcontra
        exact srcWF_head_not_in hwf (hcontra ▸ hmem)
      have hIH := ih (srcWF_tail hwf) b
      match e with
      | .file n dd =>
          simp only [srcName] at hne
          simp only [srcFS, fsRead]
          rw [List.find?_cons_of_neg]
          · exact hIH
          · intro hcontra
            simp only [beq_iff_eq] at hcontra
            have h2 := List.append_cancel_left hcontra
            injection h2 with h3 _
            exact hne h3
      | .dir n cs =>
          simp only [srcName] at hne
          simp only [srcFS, fsRead]
          have hnone : (srcFS (b ++ [n]) cs).find?
              (fun kv => kv.1 == b ++ m :: q2) = none := by
            rw [List.find?_eq_none]
            intro kv hkv
            obtain ⟨m2, r, _, hp2⟩ := srcFS_key
              (show (kv.1, kv.2) ∈ srcFS (b ++ [n]) cs by simpa using hkv)
            intro hcontra
            simp only [beq_iff_eq] at hcontra
            rw [hp2, show (b ++ [n]) ++ m2 :: r = b ++ (n :: m2 :: r) by simp]
              at hcontra
            have h2 := List.append_cancel_left hcontra
            injection h2 with h3 _
            exact hne h3
          rw [List.find?_append, hnone]
          simp only [Option.none_or]
          simpa [fsRead] using hIH

theorem srcPath_valid {ss : List SrcEntry} {q : List String} {d : List Nat}
    (hp : SrcPath ss q d) : SrcWF ss → ∀ m ∈ q, validName m = true := by
  induction hp with
  | hereFile n d es =>
      intro hwf m hm
      simp only [List.mem_singleton] at hm
      subst hm
      cases hwf with
      | mk _ nd vn sub => exact vn _ (List.mem_cons_self _ _)
  | hereDir n cs es q d hsub ih =>
      intro hwf m hm
      rcases List.mem_cons.mp hm with h1 | h1
      · subst h1
        cases hwf with
        | mk _ nd vn sub => exact vn _ (List.mem_cons_self _ _)
      · exact ih (srcWF_head_dir hwf) m h1
  | there e es q d hsub ih =>
      intro hwf m hm
      exact ih (srcWF_tail hwf) m hm

theorem write_total_aux (c : Codec) (fs : FileSystem) (comp : CompressionAlgo) :
    ∀ N ss, sizeOf ss < N → ∀ path buf,
      (∀ q d, SrcPath ss q d → ∃ dd, fsRead fs (path ++ q) = some dd) →
      ∃ out, write_files_dir c fs path (pack_dir_list comp ss) buf = some out := by
  intro N
  induction N with
  | zero => intro ss h; exact absurd h (Nat.not_lt_zero _)
  | succ N ih =>
      intro ss h path buf hdata
      match ss with
      | [] => exact ⟨([], buf), by simp [pack_dir_list, write_files_dir]⟩
      | .file n d :: es =>
          have hsz : sizeOf es < N := by
            simp only [List.cons.sizeOf_spec] at h; omega
          obtain ⟨dd, hdd⟩ := hdata [n] d (.hereFile n d es)
          obtain ⟨⟨es2, b2⟩, h2⟩ := ih es hsz path
            (buf ++ c.encode comp dd)
            (fun q d2 hq => hdata q d2 (.there _ es q d2 hq))
          refine ⟨(.File { pack_file comp n with
              index_start := buf.length,
              checksum := crc32 (c.encode comp dd),
              index_size := (c.encode comp dd).length } :: es2, b2), ?_⟩
          have hP : pack_dir_list comp (SrcEntry.file n d :: es) =
              .File (pack_file comp n) :: pack_dir_list comp es := by
            simp [pack_dir_list]
          rw [hP]
          simp [write_files_dir, pack_file, hdd, h2]
      | .dir n cs :: es =>
          have hszcs : sizeOf cs < N := by
            simp only [List.cons.sizeOf_spec, SrcEntry.dir.sizeOf_spec] at h; omega
          have hszes : sizeOf es < N := by
            simp only [List.cons.sizeOf_spec] at h; omega
          obtain ⟨⟨cs2, b1⟩, h1⟩ := ih cs hszcs (path ++ [n]) buf
            (fun q d2 hq => by
              have h3 := hdata (n :: q) d2 (.hereDir n cs es q d2 hq)
              simpa using h3)
          obtain ⟨⟨es2, b2⟩, h2⟩ := ih es hszes path b1
            (fun q d2 hq => hdata q d2 (.there _ es q d2 hq))
          exact ⟨(.Dir n cs2 :: es2, b2), by simp [pack_dir_list, write_files_dir, h1, h2]⟩

theorem write_total (c : Codec) (comp : CompressionAlgo) (ss : List SrcEntry)
    (hwf : SrcWF ss) :
    ∃ out, write_files_dir c (srcFS [] ss) [] (pack_dir_list comp ss) [] = some out := by
  apply write_total_aux c (srcFS [] ss) comp (sizeOf ss + 1) ss (Nat.lt_succ_self _)
  intro q d hq
  exact ⟨d, by simpa using fsRead_srcPath hq hwf []⟩

theorem pack_fileAt {ss : List SrcEntry} {q : List String} {d : List Nat}
    (comp : CompressionAlgo) (h : SrcPath ss q d) :
    ∃ f0, FileAt (pack_dir_list comp ss) q f0 ∧ f0.compression = comp := by
  induction h with
  | hereFile n d es =>
      refine ⟨pack_file comp n, ?_, rfl⟩
      have hP : pack_dir_list comp (SrcEntry.file n d :: es) =
          .File (pack_file comp n) :: pack_dir_list comp es := by
        simp [pack_dir_list]
      rw [hP, show [n] = [(pack_file comp n).name] from rfl]
      exact .hereFile (pack_file comp n) (pack_dir_list comp es)
  | hereDir n cs es q d hsub ih =>
      obtain ⟨f0, hfa, hc⟩ := ih
      have hP : pack_dir_list comp (SrcEntry.dir n cs :: es) =
          .Dir n (pack_dir_list comp cs) :: pack_dir_list comp es := by
        simp [pack_dir_list]
      rw [hP]
      exact ⟨f0, .hereDir n _ _ q f0 hfa, hc⟩
  | there e es q d hsub ih =>
      obtain ⟨f0, hfa, hc⟩ := ih
      match e with
      | .file n dd =>
          have hP : pack_dir_list comp (SrcEntry.file n dd :: es) =
              .File (pack_file comp n) :: pack_dir_list comp es := by
            simp [pack_dir_list]
          rw [hP]
          exact ⟨f0, .there _ _ q f0 hfa, hc⟩
      | .dir n cs =>
          have hP : pack_dir_list comp (SrcEntry.dir n cs :: es) =
              .Dir n (pack_dir_list comp cs) :: pack_dir_list comp es := by
            simp [pack_dir_list]
          rw [hP]
          exact ⟨f0, .there _ _ q f0 hfa, hc⟩

--   -------------------------
--   | skeleton name lemmas  |
--   -------------------------

theorem skelList_map_name (es : List QZEntry) :
    (skelList es).map skelName = es.map entryName := by
  induction es with
  | nil => simp [skelList]
  | cons e es ih =>
      cases e with
      | Dir n cs => simp [skelList, skelName, entryName, ih]
      | File f => simp [skelList, skelName, entryName, ih]

theorem pack_map_name (comp : CompressionAlgo) (ss : List SrcEntry) :
    (pack_dir_list comp ss).map entryName = ss.map srcName := by
  induction ss with
  | nil => simp [pack_dir_list]
  | cons e es ih =>
      cases e with
      | file n d => simp [pack_dir_list, entryName, srcName, pack_file, ih]
      | dir n cs => simp [pack_dir_list, entryName, srcName, ih]

theorem sdir_mem_pack {comp : CompressionAlgo} {n : String} {ks : List Skel} :
    ∀ {ss : List SrcEntry}, Skel.SDir n ks ∈ skelList (pack_dir_list comp ss) →
    ∃ cs, SrcEntry.dir n cs ∈ ss ∧ ks = skelList (pack_dir_list comp cs) := by
  intro ss
  induction ss with
  | nil => intro h; simp [pack_dir_list, skelList] at h
  | cons e es ih =>
      intro h
      cases e with
      | file n2 d =>
          simp only [pack_dir_list, skelList, List.mem_cons] at h
          rcases h with h1 | h1
          · exact absurd h1 (by simp)
          · obtain ⟨cs, hm, hks⟩ := ih h1
            exact ⟨cs, by simp [hm], hks⟩
      | dir n2 cs2 =>
          simp only [pack_dir_list, skelList, List.mem_cons] at h
          rcases h with h1 | h1
          · obtain ⟨hn, hks⟩ := Skel.SDir.injEq .. ▸ h1
            exact ⟨cs2, by simp [hn], hks⟩
          · obtain ⟨cs, hm, hks⟩ := ih h1
            exact ⟨cs, by simp [hm], hks⟩

theorem uniq_pack {comp : CompressionAlgo} {ss : List SrcEntry} (hwf : SrcWF ss) :
    UniqSkel (skelList (pack_dir_list comp ss)) := by
  induction hwf with
  | mk ss nd vn sub ih =>
      refine UniqSkel.mk _ ?_ ?_
      · rw [skelList_map_name, pack_map_name]
        exact nd
      · intro n ks hm
        obtain ⟨cs, hmem, hks⟩ := sdir_mem_pack hm
        rw [hks]
        exact ih n cs hmem

theorem uniqSkel_tail {k : Skel} {ks : List Skel} (h : UniqSkel (k :: ks)) :
    UniqSkel ks := by
  cases h with
  | mk _ nd sub =>
      exact UniqSkel.mk _ (List.nodup_cons.mp nd).2
        (fun n cs hm => sub n cs (List.mem_cons_of_mem _ hm))

theorem uniqSkel_head_not_in {k : Skel} {ks : List Skel}
    (h : UniqSkel (k :: ks)) : skelName k ∉ ks.map skelName := by
  cases h with
  | mk _ nd sub => exact (List.nodup_cons.mp nd).1

theorem uniqSkel_tail_entry {e : QZEntry} {es : List QZEntry}
    (h : UniqSkel (skelList (e :: es))) : UniqSkel (skelList es) := by
  cases e with
  | Dir n cs => simp only [skelList] at h; exact uniqSkel_tail h
  | File f => simp only [skelList] at h; exact uniqSkel_tail h

theorem uniqSkel_head_dir {n : String} {cs es : List QZEntry}
    (h : UniqSkel (skelList (.Dir n cs :: es))) : UniqSkel (skelList cs) := by
  simp only [skelList] at h
  cases h with
  | mk _ nd sub => exact sub n (skelList cs) (List.mem_cons_self _ _)

theorem uniqSkel_head_name {e : QZEntry} {es : List QZEntry}
    (h : UniqSkel (skelList (e :: es))) : entryName e ∉ es.map entryName := by
  have h2 : skelName (match e with
      | .Dir n cs => Skel.SDir n (skelList cs)
      | .File f => Skel.SFile f.name f.compression) = entryName e := by
    cases e <;> rfl
  cases e with
  | Dir n cs =>
      simp only [skelList] at h
      have h3 := uniqSkel_head_not_in h
      rw [skelList_map_name] at h3
      simpa [skelName, entryName] using h3
  | File f =>
      simp only [skelList] at h
      have h3 := uniqSkel_head_not_in h
      rw [skelList_map_name] at h3
      simpa [skelName, entryName] using h3

theorem fileAt_head {es : List QZEntry} {q : List String} {f : QZFile}
    (h : FileAt es q f) : ∃ m q2, q = m :: q2 ∧ m ∈ es.map entryName := by
  induction h with
  | hereFile f es => exact ⟨f.name, [], rfl, by simp [entryName]⟩
  | hereDir n cs es q f _ _ => exact ⟨n, q, rfl, by simp [entryName]⟩
  | there e es q f _ ih =>
      obtain ⟨m, q2, hq, hm⟩ := ih
      exact ⟨m, q2, hq, by simp [hm]⟩

--   ----------------------
--   | resolution lemma   |
--   ----------------------

theorem resolve_fileAt {es : List QZEntry} {q : List String} {f : QZFile}
    (h : FileAt es q f) : UniqSkel (skelList es) →
    ∀ rn, QZArchive._get_entry (q.map PathComponent.normal) (.Dir rn es) =
      .ok (.File f) := by
  induction h with
  | hereFile f es =>
      intro hu rn
      simp only [List.map, QZArchive._get_entry]
      rw [List.find?_cons_of_pos _ (by simp [entryName])]
  | hereDir n cs es q f hsub ih =>
      intro hu rn
      simp only [List.map, QZArchive._get_entry]
      rw [List.find?_cons_of_pos _ (by simp [entryName])]
      exact ih (uniqSkel_head_dir hu) n
  | there e es q f hsub ih =>
      intro hu rn
      obtain ⟨m, q2, hq, hmem⟩ := fileAt_head hsub
      subst hq
      have hne : entryName e ≠ m := by
        intro hcontra
        exact uniqSkel_head_name hu (hcontra ▸ hmem)
      have hIH := ih (uniqSkel_tail_entry hu) rn
      simp only [List.map, QZArchive._get_entry] at hIH ⊢
      rw [List.find?_cons_of_neg]
      · exact hIH
      · intro hcontra
        simp only [beq_iff_eq] at hcontra
        exact hne hcontra

--   ------------------------
--   | path parsing lemmas  |
--   ------------------------

theorem get_path_data (p : String) :
    (QZArchive.get_path p).data = '/' :: p.data := by
  simp [QZArchive.get_path, String.data_append]

theorem splitSlash_no_slash {l : List Char} (h : '/' ∉ l) :
    splitSlash l = [l] := by
  induction l with
  | nil => rfl
  | cons ch cs ih =>
      have hne : ch ≠ '/' := fun hc => h (by simp [hc])
      have ih2 := ih (fun hc => h (by simp [hc]))
      simp [splitSlash, hne, ih2]

theorem splitSlash_append {l : List Char} (rest : List Char) (h : '/' ∉ l) :
    splitSlash (l ++ '/' :: rest) = l :: splitSlash rest := by
  induction l with
  | nil => simp [splitSlash]
  | cons ch cs ih =>
      have hne : ch ≠ '/' := fun hc => h (by simp [hc])
      have ih2 := ih (fun hc => h (by simp [hc]))
      simp [splitSlash, hne, ih2]

theorem validName_facts {n : String} (h : validName n = true) :
    n.data ≠ [] ∧ n.data ≠ ['.'] ∧ n.data ≠ ['.', '.'] ∧ '/' ∉ n.data := by
  simp only [validName, Bool.and_eq_true, decide_eq_true_eq, List.all_eq_true] at h
  obtain ⟨⟨⟨h1, h2⟩, h3⟩, h4⟩ := h
  refine ⟨?_, ?_, ?_, ?_⟩
  · intro hc; exact h1 (String.ext_iff.mpr (by simpa using hc))
  · intro hc; exact h2 (String.ext_iff.mpr (by simpa using hc))
  · intro hc; exact h3 (String.ext_iff.mpr (by simpa using hc))
  · intro hc
    have := h4 '/' hc
    simp at this

theorem joinPath_cons_data (n m : String) (q2 : List String) :
    (joinPath (n :: m :: q2)).data = n.data ++ '/' :: (joinPath (m :: q2)).data := by
  simp [joinPath, String.data_append]

theorem pathComponents_get_path (p : String) :
    pathComponents (QZArchive.get_path p) =
      .rootDir :: ((splitSlash p.data).filter
        (fun q => !q.isEmpty && q ≠ ['.'])).map toComp := by
  simp only [pathComponents]
  rw [get_path_data p]
  simp

theorem parse_join_core : ∀ q : List String,
    (∀ m ∈ q, validName m = true) →
    ((splitSlash (joinPath q).data).filter
        (fun p => !p.isEmpty && p ≠ ['.'])).map toComp =
      q.map PathComponent.normal := by
  intro q
  induction q with
  | nil => intro _; simp [joinPath, splitSlash]
  | cons n q ih =>
      intro hv
      obtain ⟨h1, h2, h3, h4⟩ := validName_facts (hv n (List.mem_cons_self _ _))
      have hkeep : (!(n.data).isEmpty && decide (n.data ≠ ['.'])) = true := by
        simp [List.isEmpty_iff, h1, h2]
      have htc : toComp n.data = PathComponent.normal n := by
        simp [toComp, h3]
      match q with
      | [] =>
          rw [show joinPath [n] = n from rfl, splitSlash_no_slash h4]
          simp [List.filter_cons, List.isEmpty_iff, h1, h2, htc]
      | m :: q2 =>
          rw [joinPath_cons_data, splitSlash_append _ h4]
          have ih2 := ih (fun x hx => hv x (List.mem_cons_of_mem _ hx))
          simp only [List.filter_cons, hkeep, if_true, List.map_cons, htc, ih2]

theorem parse_join (q : List String) (hv : ∀ m ∈ q, validName m = true) :
    pathComponents (QZArchive.get_path (joinPath q)) =
      .rootDir :: q.map PathComponent.normal := by
  rw [pathComponents_get_path (joinPath q)]
  have hdp : (QZArchive.get_path (joinPath q)).data = '/' :: (joinPath q).data :=
    get_path_data (joinPath q)
  rw [show (joinPath q).data = (joinPath q).data from rfl, parse_join_core q hv]

theorem get_path_rooted (p : String) :
    ∃ comps, pathComponents (QZArchive.get_path p) = .rootDir :: comps :=
  ⟨_, pathComponents_get_path p⟩

theorem toComp_ne_curDir (p : List Char) : toComp p ≠ PathComponent.curDir := by
  simp only [toComp]
  split <;> simp

theorem curDir_not_in_rooted (p : String) :
    PathComponent.curDir ∉ pathComponents (QZArchive.get_path p) := by
  rw [pathComponents_get_path p]
  intro hm
  rcases List.mem_cons.mp hm with h1 | h1
  · exact absurd h1 (by simp)
  · obtain ⟨x, _, hx⟩ := List.mem_map.mp h1
    exact toComp_ne_curDir x hx

--   -------------------------------------
--   | packed header / archive helpers   |
--   -------------------------------------

/-- The entry tree after the content-writing pass of `create_archive`. -/
def packedRoot (c : Codec) (comp : CompressionAlgo) (src : List SrcEntry) :
    List QZEntry :=
  match write_files_dir c (srcFS [] src) [] (pack_dir_list comp src) [] with
  | some (es2, _) => es2
  | none => []

/-- The `QZArchiveHeader` that `create_archive` serializes. -/
def packedHeader (c : Codec) (comp : CompressionAlgo) (src_root_name : String)
    (src : List SrcEntry) (name description : String) : QZArchiveHeader :=
  { name := name, info := description, version := cargoPkgVersion,
    root := .Dir src_root_name (packedRoot c comp src) }

/-- C1: packing a well-formed source tree with `create_archive`, opening the
result with `read_archive`, and reading every original file path returns
bytes identical to the source file's contents, for any compression algorithm
and any codec satisfying the spec's round-trip law (the zstd / lz4 crates
and serde_json are external; their round-trip behaviour is the hypothesis).
-/
theorem c1_roundtrip (c : Codec) (hc : HeaderCodec) (comp : CompressionAlgo)
    (rootName aname desc : String) (src : List SrcEntry)
    (hwf : SrcWF src)
    (hz : ∀ b, c.zstdDecode (c.zstdEncode b) = some b)
    (hl : ∀ b, c.lz4Decode (c.lz4Encode b) = some b)
    (hhdr : hc.fromBytes (hc.toBytes (packedHeader c comp rootName src aname desc)) =
      some (packedHeader c comp rootName src aname desc))
    (hsz : (c.zstdEncode (hc.toBytes
      (packedHeader c comp rootName src aname desc))).length < 256 ^ 8) :
    ∃ bytes ar,
      create_archive c hc rootName src aname desc comp = some bytes ∧
      read_archive c hc bytes = .ok ar ∧
      ∀ q d, SrcPath src q d → ar.read_file c (joinPath q) = .ok d := by
  obtain ⟨⟨es2, fc⟩, hw⟩ := write_total c comp src hwf
  set HP := packedHeader c comp rootName src aname desc with hHP
  set hdr := c.zstdEncode (hc.toBytes HP) with hhdrdef
  set bytes := natToLe8 hdr.length ++ hdr ++ fc with hbytes
  have hpr : HP = QZArchiveHeader.mk aname desc cargoPkgVersion
      (.Dir rootName es2) := by
    rw [hHP]
    simp [packedHeader, packedRoot, hw]
  have hca : create_archive c hc rootName src aname desc comp = some bytes := by
    simp only [create_archive, hw]
    rw [hbytes, hhdrdef, ← hpr]
  have h8 : readExactAt bytes 0 8 = some (natToLe8 hdr.length) := by
    rw [hbytes, List.append_assoc]
    rw [show (8 : Nat) = (natToLe8 hdr.length).length from (natToLe8_length _).symm]
    exact readExactAt_prefix _ _
  have hsizeq : leBytesToNat (natToLe8 hdr.length) = hdr.length :=
    leBytesToNat_natToLe8 _ hsz
  have h9 : readExactAt bytes 8 hdr.length = some hdr := by
    rw [hbytes, List.append_assoc]
    rw [show (8 : Nat) = (natToLe8 hdr.length).length + 0 from by
      simp [natToLe8_length]]
    rw [readExactAt_suffix]
    exact readExactAt_prefix hdr fc
  have hra : read_archive c hc bytes = .ok ⟨bytes, hdr.length, HP⟩ := by
    simp only [read_archive, h8, hsizeq, h9]
    rw [hhdrdef]
    simp only [hz (hc.toBytes HP), hhdr]
  refine ⟨bytes, ⟨bytes, hdr.length, HP⟩, hca, hra, ?_⟩
  intro q d hq
  have hfsq : fsRead (srcFS [] src) q = some d := by
    simpa using fsRead_srcPath hq hwf []
  obtain ⟨f0, hfa0, hc0⟩ := pack_fileAt comp hq
  obtain ⟨sk, ⟨ps, hps, hbuf2, hlay⟩, fw, bk⟩ :=
    write_spec c (srcFS [] src) [] (pack_dir_list comp src) [] es2 fc hw
  obtain ⟨f2, hfa2, hnm2, hcp2⟩ := fw q f0 hfa0
  obtain ⟨data, hdata, hsz2, hck2, hlo2, hhi2, hslice2⟩ := bk q f2 hfa2
  have hdd : data = d := by
    have h0 : fsRead (srcFS [] src) q = some data := by simpa using hdata
    rw [hfsq] at h0
    exact (Option.some.inj h0).symm
  cases hdd
  have huq : UniqSkel (skelList es2) := by
    rw [sk]
    exact uniq_pack hwf
  have hres := resolve_fileAt hfa2 huq rootName
  have hval := srcPath_valid hq hwf
  have hroot2 : QZArchive._get_entry (q.map PathComponent.normal)
      (QZArchive.mk bytes hdr.length HP).header.root = .ok (.File f2) := by
    show QZArchive._get_entry (q.map PathComponent.normal) HP.root = .ok (.File f2)
    rw [hpr]
    exact hres
  have hre : readExactAt bytes (hdr.length + 8 + f2.index_start) f2.index_size =
      some (c.encode f2.compression d) := by
    rw [hbytes]
    have hprelen : (natToLe8 hdr.length ++ hdr).length = 8 + hdr.length := by
      simp [natToLe8_length]
    rw [show hdr.length + 8 + f2.index_start =
      (natToLe8 hdr.length ++ hdr).length + f2.index_start from by rw [hprelen]; omega]
    rw [readExactAt_suffix, readExactAt_of_le fc _ _ hhi2, hslice2]
  have hrf : QZFile.read_file c f2 bytes (hdr.length + 8) = .ok d := by
    simp only [QZFile.read_file, hre, QZFile.afterRead]
    rw [if_neg (by rw [hck2]; simp)]
    simp only [QZFile.decodeStage]
    rw [hcp2, hc0]
    cases comp with
    | NONE => simp [Codec.encode, hcp2, hc0]
    | ZSTD => simp [Codec.encode, hz d]
    | LZ4 => simp [Codec.encode, hl d]
  simp only [QZArchive.read_file, parse_join q hval, hroot2]
  exact hrf

/-- Concrete source tree used by the evaluation witnesses: the spec's own
scenario (`a.txt` = "hello", `sub/b.txt` = "world"). -/
def demoSrc : List SrcEntry :=
  [.file "a.txt" [104, 101, 108, 108, 111],
   .dir "sub" [.file "b.txt" [119, 111, 114, 108, 100]]]

/-- A header codec whose decoder returns the one header the witness archive
stores; it satisfies the round-trip hypothesis at that header. -/
def demoHC : HeaderCodec :=
  { toBytes := fun _ => [],
    fromBytes := fun _ =>
      some (packedHeader idCodec CompressionAlgo.NONE "root" demoSrc "demo" "d") }

theorem demoSrc_wf : SrcWF demoSrc := by
  refine SrcWF.mk _ (by decide) (by decide) ?_
  intro n cs hm
  simp only [demoSrc, List.mem_cons] at hm
  rcases hm with h1 | h1 | h1
  · exact absurd h1 (by simp)
  · obtain ⟨hn, hcs⟩ := SrcEntry.dir.injEq .. ▸ h1
    subst hcs
    refine SrcWF.mk _ (by decide) (by decide) ?_
    intro n2 cs2 hm2
    simp at hm2
  · simp at h1

theorem c1_roundtrip_witness :
    SrcWF demoSrc ∧
    ∃ bytes ar,
      create_archive idCodec demoHC "root" demoSrc "demo" "d"
        CompressionAlgo.NONE = some bytes ∧
      read_archive idCodec demoHC bytes = .ok ar ∧
      ∀ q d, SrcPath demoSrc q d → ar.read_file idCodec (joinPath q) = .ok d :=
  ⟨demoSrc_wf,
    c1_roundtrip idCodec demoHC CompressionAlgo.NONE "root" "demo" "d" demoSrc
      demoSrc_wf (fun _ => rfl) (fun _ => rfl) rfl (by decide)⟩

theorem layout_slices : ∀ (ps : List (QZFile × List Nat)) (pre post total : List Nat),
    layout pre.length ps →
    total = pre ++ (ps.map Prod.snd).flatten ++ post →
    ∀ fe ∈ ps, fe.1.index_start + fe.1.index_size ≤ total.length ∧
      ((total.drop fe.1.index_start).take fe.1.index_size) = fe.2 := by
  intro ps
  induction ps with
  | nil => intro pre post total _ _ fe hfe; simp at hfe
  | cons fe0 rest ih =>
      intro pre post total hlay htot fe hfe
      obtain ⟨f, enc⟩ := fe0
      obtain ⟨hst, hsz, hck, hrest⟩ := hlay
      rcases List.mem_cons.mp hfe with h1 | h1
      · subst h1
        have htot2 : total = pre ++ (enc ++ ((rest.map Prod.snd).flatten ++ post)) := by
          rw [htot]; simp [List.append_assoc]
        constructor
        · rw [htot2, hst, hsz]
          simp
        · rw [htot2, hst, hsz]
          rw [List.drop_left, List.take_left]
      · have hlay2 : layout (pre ++ enc).length rest := by
          have hlen : (pre ++ enc).length = pre.length + enc.length := by simp
          rw [hlen]
          exact hrest
        have htot2 : total = (pre ++ enc) ++ (rest.map Prod.snd).flatten ++ post := by
          rw [htot]; simp [List.append_assoc]
        exact ih (pre ++ enc) post total hlay2 htot2 fe h1

/-- C2: after the content-writing pass, the file entries of the resulting
tree, in depth-first order, tile the appended region of the buffer: each
entry's `index_start` is the buffer length immediately before its payload
was appended (`layout` starts at `buf.length` and advances by each encoded
length), `index_size` is the encoded payload's length, `checksum` is the
crc32 of the encoded payload (`layout`), the buffer grows exactly by the
concatenation of the encoded payloads, and the buffer slice at
`[index_start, index_start + index_size)` is exactly that encoded payload.
`dfsEnc` pairs every file entry with the encoding of its source bytes under
its own compression tag. -/
theorem c2_write_layout (c : Codec) (fs : FileSystem) (path : List String)
    (es : List QZEntry) (buf : List Nat) (es2 : List QZEntry) (buf2 : List Nat)
    (hw : write_files_dir c fs path es buf = some (es2, buf2)) :
    ∃ ps, dfsEnc c fs path es2 = some ps ∧
      buf2 = buf ++ (ps.map Prod.snd).flatten ∧
      layout buf.length ps ∧
      ∀ fe ∈ ps, fe.1.index_start + fe.1.index_size ≤ buf2.length ∧
        ((buf2.drop fe.1.index_start).take fe.1.index_size) = fe.2 := by
  obtain ⟨_, ⟨ps, hps, hbuf, hlay⟩, _, _⟩ := write_spec c fs path es buf es2 buf2 hw
  refine ⟨ps, hps, hbuf, hlay, ?_⟩
  intro fe hfe
  exact layout_slices ps buf [] buf2 hlay (by rw [hbuf]; simp) fe hfe

theorem c2_write_layout_witness :
    write_files_dir idCodec [(["a"], [7, 8])] []
        [.File (QZFile.mk "a" CompressionAlgo.NONE 0 0 0)] [] =
      some ([.File (QZFile.mk "a" CompressionAlgo.NONE (crc32 [7, 8]) 0 2)], [7, 8]) ∧
    (∃ ps, dfsEnc idCodec [(["a"], [7, 8])] []
        [.File (QZFile.mk "a" CompressionAlgo.NONE (crc32 [7, 8]) 0 2)] = some ps ∧
      ([7, 8] : List Nat) = [] ++ (ps.map Prod.snd).flatten ∧
      layout ([] : List Nat).length ps ∧
      ∀ fe ∈ ps, fe.1.index_start + fe.1.index_size ≤ ([7, 8] : List Nat).length ∧
        ((([7, 8] : List Nat).drop fe.1.index_start).take fe.1.index_size) = fe.2) := by
  have hw : write_files_dir idCodec [(["a"], [7, 8])] []
      [.File (QZFile.mk "a" CompressionAlgo.NONE 0 0 0)] [] =
      some ([.File (QZFile.mk "a" CompressionAlgo.NONE (crc32 [7, 8]) 0 2)], [7, 8]) := by
    simp [write_files_dir, fsRead, List.find?, idCodec, Codec.encode]
  exact ⟨hw, c2_write_layout idCodec [(["a"], [7, 8])] []
    [.File (QZFile.mk "a" CompressionAlgo.NONE 0 0 0)] []
    [.File (QZFile.mk "a" CompressionAlgo.NONE (crc32 [7, 8]) 0 2)] [7, 8] hw⟩

/-- C10: the content-writing pass only fills the storage fields (checksum,
index_start, index_size) of file entries: the skeleton of the tree — its
shape, every directory and file name, the order of every children list and
every file's compression tag — is unchanged. -/
theorem c10_write_frame (c : Codec) (fs : FileSystem) (path : List String)
    (es : List QZEntry) (buf : List Nat) (es2 : List QZEntry) (buf2 : List Nat)
    (hw : write_files_dir c fs path es buf = some (es2, buf2)) :
    skelList es2 = skelList es :=
  (write_spec c fs path es buf es2 buf2 hw).1

theorem c10_write_frame_witness :
    write_files_dir idCodec [(["d", "b"], [1, 2, 3])] []
        [.Dir "d" [.File (QZFile.mk "b" CompressionAlgo.NONE 0 0 0)]] [] =
      some ([.Dir "d" [.File (QZFile.mk "b" CompressionAlgo.NONE (crc32 [1, 2, 3]) 0 3)]],
        [1, 2, 3]) ∧
    skelList [.Dir "d" [.File (QZFile.mk "b" CompressionAlgo.NONE (crc32 [1, 2, 3]) 0 3)]] =
      skelList [.Dir "d" [.File (QZFile.mk "b" CompressionAlgo.NONE 0 0 0)]] := by
  have hw : write_files_dir idCodec [(["d", "b"], [1, 2, 3])] []
      [.Dir "d" [.File (QZFile.mk "b" CompressionAlgo.NONE 0 0 0)]] [] =
      some ([.Dir "d" [.File (QZFile.mk "b" CompressionAlgo.NONE (crc32 [1, 2, 3]) 0 3)]],
        [1, 2, 3]) := by
    simp [write_files_dir, fsRead, List.find?, idCodec, Codec.encode]
  exact ⟨hw, c10_write_frame idCodec [(["d", "b"], [1, 2, 3])] []
    [.Dir "d" [.File (QZFile.mk "b" CompressionAlgo.NONE 0 0 0)]] []
    [.Dir "d" [.File (QZFile.mk "b" CompressionAlgo.NONE (crc32 [1, 2, 3]) 0 3)]]
    [1, 2, 3] hw⟩

/-- C3: when a path resolves to a file entry, the reader reads at absolute
offset `8 + headerByteLength + entry.offset` (the handle's `header_size`
plus the 8-byte size prefix plus the entry's relative offset), reads exactly
`index_size` bytes, and a short read fails with an I/O error instead of
returning partial data; on a full read the checksum/decompression stages
receive exactly the bytes read. -/
theorem c3_absolute_offsets (c : Codec) (ar : QZArchive) (p : String) (f : QZFile)
    (comps : List PathComponent)
    (hparse : pathComponents (QZArchive.get_path p) = .rootDir :: comps)
    (hres : QZArchive._get_entry comps ar.header.root = .ok (.File f)) :
    (readExactAt ar.archive_file (8 + ar.header_size + f.index_start) f.index_size =
        none →
      ar.read_file c p = .error (.Other readExactFailMsg)) ∧
    (∀ buf, readExactAt ar.archive_file (8 + ar.header_size + f.index_start)
        f.index_size = some buf →
      buf.length = f.index_size ∧ ar.read_file c p = f.afterRead c buf) := by
  have hoff : ar.header_size + 8 + f.index_start = 8 + ar.header_size + f.index_start := by
    omega
  constructor
  · intro hnone
    simp only [QZArchive.read_file, hparse, hres, QZFile.read_file, hoff, hnone]
  · intro buf hsome
    refine ⟨readExactAt_length _ _ _ _ hsome, ?_⟩
    simp only [QZArchive.read_file, hparse, hres, QZFile.read_file, hoff, hsome]

def c3Ar : QZArchive :=
  ⟨[], 0, ⟨"n", "i", "v", .Dir "root" [.File (QZFile.mk "a" CompressionAlgo.NONE 0 0 5)]⟩⟩

theorem c3_absolute_offsets_witness :
    pathComponents (QZArchive.get_path "a") = [.rootDir, .normal "a"] ∧
    QZArchive._get_entry [.normal "a"] c3Ar.header.root =
      .ok (.File (QZFile.mk "a" CompressionAlgo.NONE 0 0 5)) ∧
    ((readExactAt c3Ar.archive_file
        (8 + c3Ar.header_size + (QZFile.mk "a" CompressionAlgo.NONE 0 0 5).index_start)
        (QZFile.mk "a" CompressionAlgo.NONE 0 0 5).index_size = none →
      c3Ar.read_file idCodec "a" = .error (.Other readExactFailMsg)) ∧
    (∀ buf, readExactAt c3Ar.archive_file
        (8 + c3Ar.header_size + (QZFile.mk "a" CompressionAlgo.NONE 0 0 5).index_start)
        (QZFile.mk "a" CompressionAlgo.NONE 0 0 5).index_size = some buf →
      buf.length = (QZFile.mk "a" CompressionAlgo.NONE 0 0 5).index_size ∧
        c3Ar.read_file idCodec "a" =
          (QZFile.mk "a" CompressionAlgo.NONE 0 0 5).afterRead idCodec buf)) :=
  ⟨rfl, rfl, c3_absolute_offsets idCodec c3Ar "a"
    (QZFile.mk "a" CompressionAlgo.NONE 0 0 5) [.normal "a"] rfl rfl⟩

/-- C4: with the stored bytes read, a crc32 mismatch makes `read_file` fail
with `Checksum (actual, expected)` where `expected` is the entry's recorded
checksum and `actual` the hash of the bytes read; the result is the same for
every codec, so no decompression is involved in this failure.
Decompression (`decodeStage`) runs exactly when the hashes match. -/
theorem c4_checksum_before_decode (c c2 : Codec) (f : QZFile)
    (archive : List Nat) (offset : Nat) (buf : List Nat)
    (hread : readExactAt archive (offset + f.index_start) f.index_size = some buf) :
    (crc32 buf ≠ f.checksum →
      QZFile.read_file c f archive offset =
        .error (.Checksum (crc32 buf) f.checksum) ∧
      QZFile.read_file c2 f archive offset =
        .error (.Checksum (crc32 buf) f.checksum)) ∧
    (crc32 buf = f.checksum →
      QZFile.read_file c f archive offset = f.decodeStage c buf) := by
  constructor
  · intro hne
    constructor
    · simp only [QZFile.read_file, hread, QZFile.afterRead]
      rw [if_pos hne]
    · simp only [QZFile.read_file, hread, QZFile.afterRead]
      rw [if_pos hne]
  · intro heq
    simp only [QZFile.read_file, hread, QZFile.afterRead]
    rw [if_neg (by simp [heq])]

theorem c4_checksum_before_decode_witness :
    readExactAt [9] (0 + (QZFile.mk "a" CompressionAlgo.ZSTD 0 0 1).index_start)
      (QZFile.mk "a" CompressionAlgo.ZSTD 0 0 1).index_size = some [9] ∧
    crc32 [9] ≠ (QZFile.mk "a" CompressionAlgo.ZSTD 0 0 1).checksum ∧
    QZFile.read_file idCodec (QZFile.mk "a" CompressionAlgo.ZSTD 0 0 1) [9] 0 =
      .error (.Checksum (crc32 [9]) 0) := by
  have h1 : readExactAt [9] (0 + (QZFile.mk "a" CompressionAlgo.ZSTD 0 0 1).index_start)
      (QZFile.mk "a" CompressionAlgo.ZSTD 0 0 1).index_size = some [9] := rfl
  have h2 : crc32 [9] ≠ (QZFile.mk "a" CompressionAlgo.ZSTD 0 0 1).checksum := by decide
  exact ⟨h1, h2,
    ((c4_checksum_before_decode idCodec idCodec
        (QZFile.mk "a" CompressionAlgo.ZSTD 0 0 1) [9] 0 [9] h1).1 h2).1⟩

--   ----------------------------------------
--   | corrected claims: C5, C6, C7, C9     |
--   ----------------------------------------

def c5Ar : QZArchive := ⟨[], 0, ⟨"n", "i", "v", .Dir "root" []⟩⟩

/-- C5 counterexample: reading a nonexistent path does not fail with
`NotFound` — `read_file` wraps the resolution failure as
`Other("NothingFound")` (the `format!("{:?}", err)` of the entry error). -/
theorem c5_counterexample :
    QZArchive.read_file idCodec c5Ar "missing" = .error (.Other "NothingFound") ∧
    QZArchive.read_file idCodec c5Ar "missing" ≠ .error .NotFound := by
  have h1 : QZArchive.read_file idCodec c5Ar "missing" =
      .error (.Other "NothingFound") := rfl
  refine ⟨h1, ?_⟩
  rw [h1]
  simp

/-- C5 amended: for a path whose resolution fails, `read_file` fails with
`Other` carrying the debug rendering of the resolution error (not with
`NotFound`), and the underlying resolution fails with `NothingFound`
exactly when no child of the current directory matches the next
component's name. -/
theorem c5_resolution_error (c : Codec) (ar : QZArchive) (p : String)
    (comps : List PathComponent) (e : EntryError)
    (hparse : pathComponents (QZArchive.get_path p) = .rootDir :: comps)
    (hres : QZArchive._get_entry comps ar.header.root = .error e) :
    ar.read_file c p = .error (.Other (entryErrDebug e)) ∧
    (∀ w rest n content, content.find? (fun e2 => entryName e2 == w) = none →
      QZArchive._get_entry (.normal w :: rest) (.Dir n content) =
        .error .NothingFound) := by
  constructor
  · simp only [QZArchive.read_file, hparse, hres]
  · intro w rest n content hfind
    simp only [QZArchive._get_entry, hfind]

theorem c5_resolution_error_witness :
    pathComponents (QZArchive.get_path "missing") = [.rootDir, .normal "missing"] ∧
    QZArchive._get_entry [.normal "missing"] c5Ar.header.root =
      .error .NothingFound ∧
    (QZArchive.read_file idCodec c5Ar "missing" =
        .error (.Other (entryErrDebug .NothingFound)) ∧
      (∀ w rest n content, content.find? (fun e2 => entryName e2 == w) = none →
        QZArchive._get_entry (.normal w :: rest) (.Dir n content) =
          .error .NothingFound)) :=
  ⟨rfl, rfl, c5_resolution_error idCodec c5Ar "missing" [.normal "missing"]
    .NothingFound rfl rfl⟩

def c6File : QZFile := ⟨"a.txt", .NONE, 0, 0, 0⟩

def c6Ar : QZArchive := ⟨[], 0, ⟨"n", "i", "v", .Dir "root" [.File c6File]⟩⟩

/-- C6 counterexample: resolving `/a.txt/extra`, where `a.txt` is a file,
does not fail — the matched file entry is returned with the remaining
component silently ignored. -/
theorem c6_counterexample :
    QZArchive.get_entry c6Ar "a.txt/extra" = .ok (.File c6File) ∧
    (QZArchive.get_entry c6Ar "a.txt/extra").isOk = true := ⟨rfl, rfl⟩

/-- C6 amended: when a component matches a `File` child, resolution returns
that file immediately, ignoring any remaining path components; the
file-is-not-a-directory fall-through (`Other("")`) occurs only when the
entry resolution starts from is itself a `File`. -/
theorem c6_file_match_returns (w : String) (rest : List PathComponent)
    (n : String) (content : List QZEntry) (f : QZFile)
    (hfind : content.find? (fun e => entryName e == w) = some (.File f)) :
    QZArchive._get_entry (.normal w :: rest) (.Dir n content) = .ok (.File f) ∧
    ∀ comps g, QZArchive._get_entry comps (.File g) = .error (.Other "") := by
  constructor
  · simp only [QZArchive._get_entry, hfind]
  · intro comps g
    simp [QZArchive._get_entry]

theorem c6_file_match_returns_witness :
    ([QZEntry.File c6File].find? (fun e => entryName e == "a.txt") =
      some (.File c6File)) ∧
    (QZArchive._get_entry [.normal "a.txt", .normal "extra"]
        (.Dir "root" [.File c6File]) = .ok (.File c6File) ∧
      ∀ comps g, QZArchive._get_entry comps (.File g) = .error (.Other "")) :=
  ⟨rfl, c6_file_match_returns "a.txt" [.normal "extra"] "root" [.File c6File]
    c6File rfl⟩

def c7Ar : QZArchive :=
  ⟨[], 0, ⟨"n", "i", "v", .Dir "root"
    [.Dir "a" [.File (QZFile.mk "b" CompressionAlgo.NONE 0 0 0)]]⟩⟩

/-- C7 counterexample: a path containing a `.` component does not fail with
`PathError` — `std::path` normalization removes the `.` before the tree
walk, so `a/./b` resolves to the file `b`. -/
theorem c7_counterexample :
    QZArchive.get_entry c7Ar "a/./b" =
      .ok (.File (QZFile.mk "b" CompressionAlgo.NONE 0 0 0)) ∧
    QZArchive.get_entry c7Ar "a/./b" ≠ .error .PathError := by
  have h1 : QZArchive.get_entry c7Ar "a/./b" =
      .ok (.File (QZFile.mk "b" CompressionAlgo.NONE 0 0 0)) := rfl
  refine ⟨h1, ?_⟩
  rw [h1]
  simp

/-- C7 amended: a `..` component that reaches the tree walk fails with
`PathError`; `.` components and repeated separators are removed by the
path normalization performed before the walk (a parsed rooted path never
contains a current-directory component), so they cause no error. -/
theorem c7_parent_dir_path_error (n : String) (content : List QZEntry)
    (rest : List PathComponent) :
    QZArchive._get_entry (.parentDir :: rest) (.Dir n content) =
      .error .PathError ∧
    ∀ s, PathComponent.curDir ∉ pathComponents (QZArchive.get_path s) := by
  constructor
  · rfl
  · exact curDir_not_in_rooted

theorem c7_parent_dir_path_error_witness :
    QZArchive._get_entry [PathComponent.parentDir] (.Dir "d" []) =
      .error .PathError :=
  (c7_parent_dir_path_error "d" [] []).1

def c9File : QZFile := ⟨"a", .NONE, crc32 [104, 105], 0, 2⟩

def c9Ar : QZArchive :=
  ⟨List.replicate 9 0 ++ [104, 105], 1, ⟨"n", "i", "v", .Dir "root" [.File c9File]⟩⟩

/-- C9 counterexample: a path that does not start with `/` is not rejected:
`get_path` prepends the separator, so `read_file "a"` resolves and returns
the file's bytes instead of failing with `NotFound`. -/
theorem c9_counterexample :
    QZArchive.read_file idCodec c9Ar "a" = .ok [104, 105] ∧
    QZArchive.read_file idCodec c9Ar "a" ≠ .error .NotFound := by
  have h1 : QZArchive.read_file idCodec c9Ar "a" = .ok [104, 105] := rfl
  refine ⟨h1, ?_⟩
  rw [h1]
  simp

theorem qzfile_read_ne_notfound (c : Codec) (f : QZFile) (archive : List Nat)
    (off : Nat) : QZFile.read_file c f archive off ≠ .error .NotFound := by
  simp only [QZFile.read_file]
  rcases readExactAt archive (off + f.index_start) f.index_size with _ | buf
  · simp
  · simp only [QZFile.afterRead]
    split
    · simp
    · simp only [QZFile.decodeStage]
      rcases f.compression with _ | _ | _
      · rcases c.zstdDecode buf with _ | b <;> simp
      · rcases c.lz4Decode buf with _ | b <;> simp
      · simp

/-- C9 amended: `get_path` prepends the root separator to every input, so
every path parses as rooted and `read_file` can never return `NotFound`;
the not-rooted branch of `read_file` is unreachable. -/
theorem c9_never_notfound (c : Codec) (ar : QZArchive) (p : String) :
    (∃ comps, pathComponents (QZArchive.get_path p) = .rootDir :: comps) ∧
    ar.read_file c p ≠ .error .NotFound := by
  refine ⟨get_path_rooted p, ?_⟩
  obtain ⟨comps, hcomps⟩ := get_path_rooted p
  simp only [QZArchive.read_file, hcomps]
  rcases hres : QZArchive._get_entry comps ar.header.root with e | entry
  · simp
  · rcases entry with ⟨n, content⟩ | f
    · simp
    · exact qzfile_read_ne_notfound c f ar.archive_file (ar.header_size + 8)

theorem c9_never_notfound_witness :
    (∃ comps, pathComponents (QZArchive.get_path "x") = .rootDir :: comps) ∧
    QZArchive.read_file idCodec c9Ar "x" ≠ .error .NotFound :=
  c9_never_notfound idCodec c9Ar "x"

--   ----------------------
--   | corrected claim C8 |
--   ----------------------

/-- A codec whose decoders reject every input, modelling a corrupted or
undecodable stored stream. -/
def c8Codec : Codec :=
  { zstdEncode := fun b => b, zstdDecode := fun _ => none,
    lz4Encode := fun b => b, lz4Decode := fun _ => none }

def c8File : QZFile := ⟨"a", .ZSTD, crc32 [], 0, 0⟩

def c8Ar : QZArchive := ⟨[], 0, ⟨"n", "i", "v", .Dir "root" [.File c8File]⟩⟩

/-- C8 counterexample: on a stored stream whose decompression fails,
`read_file` fails with `CompressionError` but `check_file` fails with
`Other("")` — `is_valid` collapses every non-checksum failure, so
`check_file` does not behave identically to `read_file` and a
`CompressionError` outcome is impossible for it. -/
theorem c8_counterexample :
    QZArchive.read_file c8Codec c8Ar "a" = .error .CompressionError ∧
    QZArchive.check_file c8Codec c8Ar "a" = .error (.Other "") ∧
    QZArchive.check_file c8Codec c8Ar "a" ≠ .error .CompressionError := by
  have h1 : QZArchive.read_file c8Codec c8Ar "a" = .error .CompressionError := rfl
  have h2 : QZArchive.check_file c8Codec c8Ar "a" = .error (.Other "") := rfl
  refine ⟨h1, h2, ?_⟩
  rw [h2]
  simp

/-- C8 amended: `check_file` succeeds exactly when `read_file` succeeds and
still performs decompression, and it reports checksum mismatches as
`Checksum (actual, expected)` exactly as `read_file` does; but every other
`read_file` failure — including `CompressionError` — is reported as
`Other("")`, so a `CompressionError` outcome is impossible for
`check_file`. -/
theorem c8_check_vs_read (c : Codec) (ar : QZArchive) (p : String) :
    (ar.check_file c p = .ok () ↔ ∃ bs, ar.read_file c p = .ok bs) ∧
    (∀ r e, ar.check_file c p = .error (.Checksum r e) ↔
      ar.read_file c p = .error (.Checksum r e)) ∧
    (ar.read_file c p = .error .CompressionError →
      ar.check_file c p = .error (.Other "")) ∧
    ar.check_file c p ≠ .error .CompressionError := by
  rcases hpc : pathComponents (QZArchive.get_path p) with _ | ⟨pc, comps⟩
  · simp only [QZArchive.check_file, QZArchive.read_file, hpc]
    exact ⟨by simp, fun r e => by simp, by simp, by simp⟩
  · rcases pc with _ | _ | _ | w
    · rcases hres : QZArchive._get_entry comps ar.header.root with e | entry
      · simp only [QZArchive.check_file, QZArchive.read_file, hpc, hres]
        exact ⟨by simp, fun r e => by simp, by simp, by simp⟩
      · rcases entry with ⟨n, content⟩ | f
        · simp only [QZArchive.check_file, QZArchive.read_file, hpc, hres]
          exact ⟨by simp, fun r e => by simp, by simp, by simp⟩
        · simp only [QZArchive.check_file, QZArchive.read_file, hpc, hres,
            QZFile.is_valid]
          rcases hrf : QZFile.read_file c f ar.archive_file (ar.header_size + 8)
            with err | val
          · rcases err with _ | _ | _ | ⟨r0, e0⟩ | msg <;>
              exact ⟨by simp, fun r e => by simp, by simp, by simp⟩
          · exact ⟨by simp, fun r e => by simp, by simp, by simp⟩
    · simp only [QZArchive.check_file, QZArchive.read_file, hpc]
      exact ⟨by simp, fun r e => by simp, by simp, by simp⟩
    · simp only [QZArchive.check_file, QZArchive.read_file, hpc]
      exact ⟨by simp, fun r e => by simp, by simp, by simp⟩
    · simp only [QZArchive.check_file, QZArchive.read_file, hpc]
      exact ⟨by simp, fun r e => by simp, by simp, by simp⟩

theorem c8_check_vs_read_witness :
    (QZArchive.check_file idCodec c9Ar "a" = .ok () ↔
      ∃ bs, QZArchive.read_file idCodec c9Ar "a" = .ok bs) ∧
    (∀ r e, QZArchive.check_file idCodec c9Ar "a" = .error (.Checksum r e) ↔
      QZArchive.read_file idCodec c9Ar "a" = .error (.Checksum r e)) ∧
    (QZArchive.read_file idCodec c9Ar "a" = .error .CompressionError →
      QZArchive.check_file idCodec c9Ar "a" = .error (.Other "")) ∧
    QZArchive.check_file idCodec c9Ar "a" ≠ .error .CompressionError :=
  c8_check_vs_read idCodec c9Ar "a"
